import Mathlib

/-!
Verification of the results-collection layer of the segmented search engine:
the bounded top-K ranking collector (`TopDocs` over `TopCollector<Score>`),
the type-erased composite collector (`MultiCollector`), and the
`PositionSerializer` block writer.

Machine floats (`f32` scores) are only ever compared by the collector, never
combined arithmetically, so `Score` is modelled by an ordered numeric type.
-/

/-- Relevance score. The source type is `f32`; the collector only compares
scores, so they are modelled by `Int`. -/
abbrev Score := Int

/-- Document id, local to one segment (`DocId = u32`). -/
abbrev DocId := Nat

/-- Segment ordinal (`SegmentLocalId = u32`). -/
abbrev SegmentLocalId := Nat

/-- `DocAddress(SegmentLocalId, DocId)`: unique document identity inside a
snapshot, ordered lexicographically (the derived order on the tuple struct). -/
abbrev DocAddress := Nat × Nat

/-- A ranking entry `(Score, DocAddress)` as stored and returned by the
bounded ranking collector. The score component is written `Int` (rather than
through the `Score` alias) so that arithmetic automation sees it directly. -/
abbrev REntry := Int × DocAddress

/-- Lexicographic `≤` on document addresses. -/
def addrLe (a b : DocAddress) : Prop :=
  a.1 < b.1 ∨ (a.1 = b.1 ∧ a.2 ≤ b.2)

/-- Lexicographic `<` on document addresses. -/
def addrLt (a b : DocAddress) : Prop :=
  a.1 < b.1 ∨ (a.1 = b.1 ∧ a.2 < b.2)

instance (a b : DocAddress) : Decidable (addrLe a b) := by
  unfold addrLe; exact inferInstance

instance (a b : DocAddress) : Decidable (addrLt a b) := by
  unfold addrLt; exact inferInstance

/-- `rankBE a b`: entry `a` ranks before-or-equal `b` — higher score first,
score ties broken by ascending document address. -/
def rankBE (a b : REntry) : Prop :=
  b.1 < a.1 ∨ (a.1 = b.1 ∧ addrLe a.2 b.2)

/-- `rankAbove a b`: entry `a` ranks strictly above `b`. -/
def rankAbove (a b : REntry) : Prop :=
  b.1 < a.1 ∨ (a.1 = b.1 ∧ addrLt a.2 b.2)

instance (a b : REntry) : Decidable (rankBE a b) := by
  unfold rankBE; exact inferInstance

instance (a b : REntry) : Decidable (rankAbove a b) := by
  unfold rankAbove; exact inferInstance

instance : IsTotal REntry rankBE := by
  constructor
  intro a b
  obtain ⟨sa, ga, da⟩ := a
  obtain ⟨sb, gb, db⟩ := b
  simp only [rankBE, addrLe]
  omega

instance : IsTrans REntry rankBE := by
  constructor
  intro a b c hab hbc
  obtain ⟨sa, ga, da⟩ := a
  obtain ⟨sb, gb, db⟩ := b
  obtain ⟨sc, gc, dc⟩ := c
  simp only [rankBE, addrLe] at hab hbc ⊢
  omega

instance : IsAntisymm REntry rankBE := by
  constructor
  intro a b hab hba
  obtain ⟨sa, ga, da⟩ := a
  obtain ⟨sb, gb, db⟩ := b
  simp only [rankBE, addrLe] at hab hba
  simp only [Prod.mk.injEq]
  omega

theorem rankBE_of_rankAbove {a b : REntry} (h : rankAbove a b) : rankBE a b := by
  obtain ⟨sa, ga, da⟩ := a
  obtain ⟨sb, gb, db⟩ := b
  simp only [rankBE, rankAbove, addrLe, addrLt] at h ⊢
  omega

theorem rankBE_of_not_rankAbove {a b : REntry} (h : ¬ rankAbove a b) : rankBE b a := by
  obtain ⟨sa, ga, da⟩ := a
  obtain ⟨sb, gb, db⟩ := b
  simp only [rankBE, rankAbove, addrLe, addrLt] at h ⊢
  omega

theorem eq_of_rankBE_of_not_rankAbove {a b : REntry} (h1 : rankBE a b)
    (h2 : ¬ rankAbove a b) : a = b := by
  obtain ⟨sa, ga, da⟩ := a
  obtain ⟨sb, gb, db⟩ := b
  simp only [rankBE, rankAbove, addrLe, addrLt] at h1 h2
  simp only [Prod.mk.injEq]
  omega

/-- Minimum-ranked element of the heap content, kept as the last element of
the descending-sorted list (the peeked root of the source's min-oriented
`BinaryHeap`). -/
def heapMin : List REntry → Option REntry
  | [] => none
  | [x] => some x
  | _ :: b :: t => heapMin (b :: t)

/-- Modelled from the spec: `TopCollector::collect` (§4.3), whose source file
`top_collector.rs` is not in the excerpt — "maintain the K best Ranking
entries seen so far using a size-capped min-heap keyed by Score (ties broken
by DocumentAddress). For each incoming entry: if the heap has fewer than K
entries, insert; otherwise, compare against the current minimum — insert and
evict the minimum only if the new entry strictly ranks above it." The heap is
represented by its content as a list sorted in descending rank order. -/
def topStep (K : Nat) (acc : List REntry) (e : REntry) : List REntry :=
  if acc.length < K then List.orderedInsert rankBE e acc
  else
    match heapMin acc with
    | none => acc
    | some m => if rankAbove e m then List.orderedInsert rankBE e acc.dropLast else acc

/-- Modelled from the spec: one segment's scan — every `collect` call in
stream order, starting from the empty heap. -/
def segCollectRun (K : Nat) (stream : List REntry) : List REntry :=
  stream.foldl (topStep K) []

/-- Modelled from the spec: `TopSegmentCollector::harvest` — "drains the heap
into a descending-ranked sequence (highest score first, address tie-break)". -/
def segHarvest (acc : List REntry) : List REntry :=
  List.insertionSort rankBE acc

/-- The specification's description of the result: the K highest-ranked
entries in descending rank order. -/
def topK (K : Nat) (xs : List REntry) : List REntry :=
  (List.insertionSort rankBE xs).take K

/-- Modelled from the spec: `TopCollector::merge_fruits` (§4.3), whose source
file `top_collector.rs` is not in the excerpt — "merge concatenates all
per-segment sequences and re-applies the same bounded selection". -/
def topMergeFruits (K : Nat) (fruits : List (List REntry)) : List REntry :=
  segHarvest (segCollectRun K fruits.flatten)

theorem heapMin_append_single (l : List REntry) (m : REntry) :
    heapMin (l ++ [m]) = some m := by
  induction l with
  | nil => rfl
  | cons x t ih =>
    cases t with
    | nil => rfl
    | cons y t₂ => exact ih

theorem heapMin_mem {l : List REntry} {m : REntry} (h : heapMin l = some m) : m ∈ l := by
  induction l with
  | nil => simp [heapMin] at h
  | cons x t ih =>
    cases t with
    | nil =>
      simp only [heapMin, Option.some.injEq] at h
      simp [h]
    | cons y t₂ =>
      have : m ∈ y :: t₂ := ih h
      exact List.mem_cons_of_mem x this

theorem orderedInsert_append_single {e m : REntry} (h : rankBE e m) :
    ∀ l : List REntry,
      List.orderedInsert rankBE e (l ++ [m]) = List.orderedInsert rankBE e l ++ [m]
  | [] => by simp [List.orderedInsert, h]
  | b :: t => by
    by_cases hr : rankBE e b
    · simp [List.orderedInsert, hr]
    · show List.orderedInsert rankBE e (b :: (t ++ [m])) = _
      simp only [List.orderedInsert, if_neg hr]
      rw [orderedInsert_append_single h t]
      simp [List.cons_append]

theorem take_orderedInsert (e : REntry) :
    ∀ (s : List REntry) (K : Nat),
      (List.orderedInsert rankBE e (s.take K)).take K = (List.orderedInsert rankBE e s).take K := by
  intro s
  induction s with
  | nil => intro K; simp
  | cons b t ih =>
    intro K
    cases K with
    | zero => simp
    | succ k =>
      by_cases hr : rankBE e b
      · simp only [List.take_succ_cons, List.orderedInsert, if_pos hr, List.take_succ_cons]
        cases k with
        | zero => simp
        | succ j =>
          have hmin : min j (j + 1) = j := by omega
          simp [List.take_take, hmin]
      · simp only [List.take_succ_cons, List.orderedInsert, if_neg hr, List.take_succ_cons]
        rw [ih k]

theorem orderedInsert_take_of_not_above :
    ∀ (acc : List REntry) (m e : REntry), List.Sorted rankBE acc →
      heapMin acc = some m → ¬ rankAbove e m →
      (List.orderedInsert rankBE e acc).take acc.length = acc := by
  intro acc
  induction acc with
  | nil => intro m e _ hmin _; simp [heapMin] at hmin
  | cons b rest ih =>
    intro m e hs hmin hna
    cases rest with
    | nil =>
      simp only [heapMin, Option.some.injEq] at hmin
      subst hmin
      by_cases hr : rankBE e b
      · have heb : e = b := eq_of_rankBE_of_not_rankAbove hr hna
        simp [List.orderedInsert, hr, heb]
      · simp [List.orderedInsert, hr]
    | cons c t =>
      have hmin' : heapMin (c :: t) = some m := hmin
      rw [List.sorted_cons] at hs
      obtain ⟨hb, hs'⟩ := hs
      by_cases hr : rankBE e b
      · have hbm : rankBE b m := hb m (heapMin_mem hmin')
        have hem : rankBE e m := Trans.trans hr hbm
        have heqm : e = m := eq_of_rankBE_of_not_rankAbove hem hna
        have heb : e = b := antisymm hr (heqm ▸ hbm)
        have hec : rankBE e c := heb ▸ hb c (List.mem_cons_self c t)
        have ihc := ih m e hs' hmin' hna
        rw [List.orderedInsert, if_pos hec] at ihc
        simp only [List.orderedInsert, if_pos hr, List.length_cons, List.take_succ_cons] at ihc ⊢
        rw [heb] at ihc
        rw [heb]
        exact congrArg (List.cons b) ihc
      · simp only [List.orderedInsert, if_neg hr, List.length_cons, List.take_succ_cons]
        exact congrArg (List.cons b) (ih m e hs' hmin' hna)

theorem topStep_spec (K : Nat) (acc : List REntry) (e : REntry)
    (hs : List.Sorted rankBE acc) (hl : acc.length ≤ K) :
    topStep K acc e = (List.orderedInsert rankBE e acc).take K := by
  unfold topStep
  by_cases h : acc.length < K
  · rw [if_pos h, List.take_of_length_le]
    rw [List.orderedInsert_length]
    omega
  · rw [if_neg h]
    have hK : acc.length = K := by omega
    rcases List.eq_nil_or_concat acc with rfl | ⟨dl, m, rfl⟩
    · simp at hK
      subst hK
      simp [heapMin]
    · simp only [List.concat_eq_append] at hs hl h hK ⊢
      rw [heapMin_append_single]
      show (if rankAbove e m then List.orderedInsert rankBE e (dl ++ [m]).dropLast
        else dl ++ [m]) = List.take K (List.orderedInsert rankBE e (dl ++ [m]))
      by_cases hab : rankAbove e m
      · rw [if_pos hab, List.dropLast_concat,
          orderedInsert_append_single (rankBE_of_rankAbove hab) dl]
        have hlen : (List.orderedInsert rankBE e dl).length = K := by
          rw [List.orderedInsert_length]
          simp at hK
          omega
        rw [← hlen, List.take_left]
      · rw [if_neg hab, ← hK,
          orderedInsert_take_of_not_above (dl ++ [m]) m e hs (heapMin_append_single dl m) hab]

theorem sorted_topK (K : Nat) (xs : List REntry) : List.Sorted rankBE (topK K xs) :=
  List.Pairwise.sublist (List.take_sublist K _) (List.sorted_insertionSort rankBE xs)

theorem length_topK_le (K : Nat) (xs : List REntry) : (topK K xs).length ≤ K := by
  simp [topK, List.length_take]

theorem topK_nil (K : Nat) : topK K [] = [] := by
  simp [topK]

theorem topStep_topK (K : Nat) (ys : List REntry) (e : REntry) :
    topStep K (topK K ys) e = topK K (e :: ys) := by
  rw [topStep_spec K _ e (sorted_topK K ys) (length_topK_le K ys)]
  show (List.orderedInsert rankBE e ((List.insertionSort rankBE ys).take K)).take K = _
  rw [take_orderedInsert]
  rfl

theorem topK_perm (K : Nat) {xs ys : List REntry} (h : xs.Perm ys) :
    topK K xs = topK K ys := by
  unfold topK
  congr 1
  exact List.eq_of_perm_of_sorted
    ((List.perm_insertionSort rankBE xs).trans (h.trans (List.perm_insertionSort rankBE ys).symm))
    (List.sorted_insertionSort rankBE xs) (List.sorted_insertionSort rankBE ys)

theorem foldl_topStep (K : Nat) :
    ∀ (xs ys : List REntry), xs.foldl (topStep K) (topK K ys) = topK K (ys ++ xs) := by
  intro xs
  induction xs with
  | nil => intro ys; simp
  | cons e xs ih =>
    intro ys
    show xs.foldl (topStep K) (topStep K (topK K ys) e) = _
    rw [topStep_topK, ih (e :: ys)]
    exact topK_perm K List.perm_middle.symm

theorem segCollectRun_eq_topK (K : Nat) (xs : List REntry) :
    segCollectRun K xs = topK K xs := by
  have h := foldl_topStep K xs []
  simpa [segCollectRun, topK_nil] using h

theorem segHarvest_run (K : Nat) (xs : List REntry) :
    segHarvest (segCollectRun K xs) = topK K xs := by
  rw [segCollectRun_eq_topK]
  exact List.Sorted.insertionSort_eq (sorted_topK K xs)

theorem topK_idem (K : Nat) (xs : List REntry) : topK K (topK K xs) = topK K xs := by
  show (List.insertionSort rankBE (topK K xs)).take K = topK K xs
  rw [List.Sorted.insertionSort_eq (sorted_topK K xs)]
  show ((List.insertionSort rankBE xs).take K).take K = _
  rw [List.take_take]
  simp [topK, Nat.min_self]

theorem topK_append_left_topK (K : Nat) (s t : List REntry) :
    topK K (topK K s ++ t) = topK K (s ++ t) := by
  have h1 := foldl_topStep K t (topK K s)
  have h2 := foldl_topStep K t s
  rw [topK_idem] at h1
  exact h1.symm.trans h2

theorem topK_flatten_map (K : Nat) :
    ∀ ss : List (List REntry), topK K ((ss.map (topK K)).flatten) = topK K ss.flatten := by
  intro ss
  induction ss with
  | nil => rfl
  | cons s rest ih =>
    show topK K (topK K s ++ (rest.map (topK K)).flatten) = topK K (s ++ rest.flatten)
    rw [topK_append_left_topK]
    have hcomm : ∀ a b : List REntry, topK K (a ++ b) = topK K (b ++ a) :=
      fun a b => topK_perm K List.perm_append_comm
    have h1 := foldl_topStep K s ((rest.map (topK K)).flatten)
    have h2 := foldl_topStep K s rest.flatten
    rw [ih] at h1
    calc topK K (s ++ (rest.map (topK K)).flatten)
        = topK K ((rest.map (topK K)).flatten ++ s) := hcomm _ _
      _ = topK K (rest.flatten ++ s) := h1.symm.trans h2
      _ = topK K (s ++ rest.flatten) := hcomm _ _

theorem topMergeFruits_single (K : Nat) (f : List REntry) :
    topMergeFruits K [f] = topK K f := by
  have hf : ([f] : List (List REntry)).flatten = f := by simp
  rw [topMergeFruits, hf, segHarvest_run]

/-- C1: for every limit K ≥ 1 and every finite multiset of `(Score, DocAddress)`
inputs fed through `collect` in any presentation order (`ys` is any permutation
of the multiset `xs`), the merged final Fruit of the bounded ranking collector
is exactly the K highest-ranked entries ordered by score descending with
document address ascending as tie-break (all entries, in ranked order, when
fewer than K documents were collected): it equals `topK K xs`, is sorted by
rank, has length `min K xs.length`, and the remaining entries all rank at or
below every returned entry. -/
theorem topdocs_topk_correct (K : Nat) (hK : 1 ≤ K) (xs ys : List REntry)
    (hperm : xs.Perm ys) :
    topMergeFruits K [segHarvest (segCollectRun K ys)] = topK K xs ∧
    List.Sorted rankBE (topK K xs) ∧
    (topK K xs).length = min K xs.length ∧
    ∃ rest : List REntry, xs.Perm (topK K xs ++ rest) ∧
      ∀ a ∈ topK K xs, ∀ b ∈ rest, rankBE a b := by
  refine ⟨?_, sorted_topK K xs, ?_, ?_⟩
  · rw [segHarvest_run, topMergeFruits_single, topK_idem]
    exact topK_perm K hperm.symm
  · simp [topK, List.length_take, List.length_insertionSort]
  · refine ⟨(List.insertionSort rankBE xs).drop K, ?_, ?_⟩
    · have hsplit : topK K xs ++ (List.insertionSort rankBE xs).drop K =
          List.insertionSort rankBE xs := List.take_append_drop K _
      rw [hsplit]
      exact (List.perm_insertionSort rankBE xs).symm
    · have hp : List.Pairwise rankBE (List.insertionSort rankBE xs) :=
        List.sorted_insertionSort rankBE xs
      rw [← List.take_append_drop K (List.insertionSort rankBE xs)] at hp
      have := (List.pairwise_append.mp hp).2.2
      exact fun a ha b hb => this a ha b hb

/-- Witness for C1 at K = 2 over the multiset
{(7,(0,1)), (5,(0,0)), (5,(0,2))} presented in a different order. -/
theorem topdocs_topk_correct_witness :
    topMergeFruits 2 [segHarvest (segCollectRun 2
        [((5 : Int), ((0 : Nat), (2 : Nat))), (7, (0, 1)), (5, (0, 0))])] =
      topK 2 [((7 : Int), ((0 : Nat), (1 : Nat))), (5, (0, 0)), (5, (0, 2))] ∧
    List.Sorted rankBE (topK 2 [((7 : Int), ((0 : Nat), (1 : Nat))), (5, (0, 0)), (5, (0, 2))]) ∧
    (topK 2 [((7 : Int), ((0 : Nat), (1 : Nat))), (5, (0, 0)), (5, (0, 2))]).length =
      min 2 [((7 : Int), ((0 : Nat), (1 : Nat))), (5, (0, 0)), (5, (0, 2))].length ∧
    ∃ rest : List REntry,
      List.Perm [((7 : Int), ((0 : Nat), (1 : Nat))), (5, (0, 0)), (5, (0, 2))]
        (topK 2 [((7 : Int), ((0 : Nat), (1 : Nat))), (5, (0, 0)), (5, (0, 2))] ++ rest) ∧
      ∀ a ∈ topK 2 [((7 : Int), ((0 : Nat), (1 : Nat))), (5, (0, 0)), (5, (0, 2))],
        ∀ b ∈ rest, rankBE a b :=
  topdocs_topk_correct 2 (by decide)
    [((7 : Int), ((0 : Nat), (1 : Nat))), (5, (0, 0)), (5, (0, 2))]
    [((5 : Int), ((0 : Nat), (2 : Nat))), (7, (0, 1)), (5, (0, 0))]
    (by decide)

/-- C2: shard invariance of the bounded ranking collector — partitioning the
document stream into any list of segments, harvesting each, and merging gives
a final Fruit identical (same entries, same order) to collecting everything
in one single segment and merging that. -/
theorem topdocs_shard_invariance (K : Nat) (hK : 1 ≤ K) (segs : List (List REntry)) :
    topMergeFruits K (segs.map (fun s => segHarvest (segCollectRun K s))) =
      topMergeFruits K [segHarvest (segCollectRun K segs.flatten)] := by
  have hmap : segs.map (fun s => segHarvest (segCollectRun K s)) = segs.map (topK K) := by
    apply List.map_congr_left
    intro s _
    exact segHarvest_run K s
  rw [hmap, segHarvest_run, topMergeFruits_single, topK_idem]
  have h1 : topMergeFruits K (segs.map (topK K)) =
      topK K ((segs.map (topK K)).flatten) := segHarvest_run K _
  rw [h1, topK_flatten_map]

/-- Witness for C2: two segments against the single-segment run, K = 2. -/
theorem topdocs_shard_invariance_witness :
    topMergeFruits 2
        ([[((3 : Int), ((0 : Nat), (0 : Nat)))],
          [((5 : Int), ((1 : Nat), (0 : Nat))), (1, (1, 1))]].map
          (fun s => segHarvest (segCollectRun 2 s))) =
      topMergeFruits 2 [segHarvest (segCollectRun 2
        ([[((3 : Int), ((0 : Nat), (0 : Nat)))],
          [((5 : Int), ((1 : Nat), (0 : Nat))), (1, (1, 1))]].flatten))] :=
  topdocs_shard_invariance 2 (by decide)
    [[((3 : Int), ((0 : Nat), (0 : Nat)))],
     [((5 : Int), ((1 : Nat), (0 : Nat))), (1, (1, 1))]]

/-- `TopDocs` (top_score_collector.rs): wraps `TopCollector<Score>`, which
carries the limit fixed at construction. -/
structure TopDocsC where
  limit : Nat

/-- Modelled from the spec: `TopCollector::with_limit` (§4.3) — its source
file `top_collector.rs` is not in the excerpt; the spec and the
`TopDocs::with_limit` doc comment ("Panics if limit is 0") state that
construction with limit 0 fails immediately. The construction-time panic is
modelled as `none`. -/
def TopDocsC.withLimit (limit : Nat) : Option TopDocsC :=
  if limit = 0 then none else some ⟨limit⟩

/-- `TopDocs::requires_scoring` (top_score_collector.rs, lines 111-113):
returns `true` unconditionally. -/
def TopDocsC.requiresScoring (_td : TopDocsC) : Bool :=
  true

/-- C6: constructing a bounded ranking collector with limit K = 0 always fails
at construction time, and construction with any K ≥ 1 never fails for that
reason: the constructor succeeds exactly when 1 ≤ K. -/
theorem topdocs_with_limit_zero_fails (K : Nat) :
    ((TopDocsC.withLimit K).isSome = true ↔ 1 ≤ K) ∧
    TopDocsC.withLimit 0 = none := by
  refine ⟨?_, rfl⟩
  cases K with
  | zero => simp [TopDocsC.withLimit]
  | succ k => simp [TopDocsC.withLimit]

/-- C9: the score-ranked top-K collector always requires scoring — for every
`TopDocs` value, whatever its limit, `requires_scoring` returns `true`. -/
theorem topdocs_requires_scoring (td : TopDocsC) :
    td.requiresScoring = true :=
  rfl

/-- `COMPRESSION_BLOCK_SIZE` (positions module): 128 values per compressed
block. -/
def COMPRESSION_BLOCK_SIZE : Nat := 128

/-- `PositionSerializer` (positions/serializer.rs), with the output stream
modelled by the values it encodes: `flushedBlocks` is the sequence of blocks
handed to the bit-packer and written to `write_stream` (the external codec is
lossless, so a block is represented by its `u32` contents), `block` is the
pending buffer and `numInts` the `num_ints` counter. The skip list and the
long-skip table do not affect block sizing and are omitted. -/
structure PositionSerializer where
  block : List Nat
  numInts : Nat
  flushedBlocks : List (List Nat)

/-- `PositionSerializer::new`. -/
def PositionSerializer.new : PositionSerializer :=
  { block := [], numInts := 0, flushedBlocks := [] }

/-- `PositionSerializer::positions_idx`: the number of values passed to
`write` so far. -/
def PositionSerializer.positionsIdx (s : PositionSerializer) : Nat :=
  s.numInts

/-- `PositionSerializer::flush_block`: compresses the pending block onto the
stream and clears it. -/
def PositionSerializer.flushBlock (s : PositionSerializer) : PositionSerializer :=
  { s with block := [], flushedBlocks := s.flushedBlocks ++ [s.block] }

/-- `PositionSerializer::write`: buffer one value; flush when the pending
block reaches `COMPRESSION_BLOCK_SIZE`. -/
def PositionSerializer.write (s : PositionSerializer) (val : Nat) : PositionSerializer :=
  if (s.block ++ [val]).length = COMPRESSION_BLOCK_SIZE then
    PositionSerializer.flushBlock
      { s with block := s.block ++ [val], numInts := s.numInts + 1 }
  else
    { s with block := s.block ++ [val], numInts := s.numInts + 1 }

/-- `PositionSerializer::write_all`: `write` every value in order. -/
def PositionSerializer.writeAll (s : PositionSerializer) (vals : List Nat) : PositionSerializer :=
  vals.foldl PositionSerializer.write s

/-- `PositionSerializer::close`: when the pending block is non-empty,
`block.resize(COMPRESSION_BLOCK_SIZE, 0)` pads it with zeros (`List.take`
reproduces `resize`'s truncation, which never fires because the pending block
stays short) and it is flushed; the result is the final content of
`write_stream` as a sequence of blocks. -/
def PositionSerializer.close (s : PositionSerializer) : List (List Nat) :=
  if s.block.isEmpty then s.flushedBlocks
  else
    let padded :=
      (s.block ++ List.replicate (COMPRESSION_BLOCK_SIZE - s.block.length) 0).take
        COMPRESSION_BLOCK_SIZE
    (PositionSerializer.flushBlock { s with block := padded }).flushedBlocks

/-- Invariant maintained by the serializer: the pending block is strictly
shorter than a full block, and every flushed block is exactly full. -/
def PSInv (s : PositionSerializer) : Prop :=
  s.block.length < COMPRESSION_BLOCK_SIZE ∧
  ∀ b ∈ s.flushedBlocks, b.length = COMPRESSION_BLOCK_SIZE

theorem write_inv {s : PositionSerializer} (h : PSInv s) (v : Nat) :
    PSInv (s.write v) ∧ (s.write v).numInts = s.numInts + 1 := by
  obtain ⟨hb, hf⟩ := h
  unfold PositionSerializer.write
  by_cases hfull : (s.block ++ [v]).length = COMPRESSION_BLOCK_SIZE
  · rw [if_pos hfull]
    refine ⟨⟨?_, ?_⟩, rfl⟩
    · simp [PositionSerializer.flushBlock, COMPRESSION_BLOCK_SIZE]
    · intro b hbmem
      simp only [PositionSerializer.flushBlock, List.mem_append,
        List.mem_singleton] at hbmem
      rcases hbmem with hold | rfl
      · exact hf b hold
      · exact hfull
  · rw [if_neg hfull]
    refine ⟨⟨?_, hf⟩, rfl⟩
    simp only [List.length_append, List.length_singleton] at hfull ⊢
    omega

theorem writeAll_inv :
    ∀ (vs : List Nat) (s : PositionSerializer), PSInv s →
      PSInv (s.writeAll vs) ∧ (s.writeAll vs).numInts = s.numInts + vs.length := by
  intro vs
  induction vs with
  | nil => intro s h; exact ⟨h, rfl⟩
  | cons v vs ih =>
    intro s h
    obtain ⟨h1, h2⟩ := write_inv h v
    obtain ⟨h3, h4⟩ := ih (s.write v) h1
    refine ⟨h3, ?_⟩
    show (PositionSerializer.writeAll (s.write v) vs).numInts = s.numInts + (vs.length + 1)
    rw [h4, h2]
    omega

theorem close_blocks {s : PositionSerializer} (h : PSInv s) :
    ∀ b ∈ s.close, b.length = COMPRESSION_BLOCK_SIZE := by
  obtain ⟨hb, hf⟩ := h
  intro b hmem
  unfold PositionSerializer.close at hmem
  by_cases hemp : s.block.isEmpty
  · rw [if_pos hemp] at hmem
    exact hf b hmem
  · rw [if_neg hemp] at hmem
    simp only [PositionSerializer.flushBlock, List.mem_append,
      List.mem_singleton] at hmem
    rcases hmem with hold | rfl
    · exact hf b hold
    · simp only [List.length_take, List.length_append, List.length_replicate]
      omega

theorem flatten_length_of_all {c : Nat} :
    ∀ L : List (List Nat), (∀ b ∈ L, b.length = c) → L.flatten.length = L.length * c := by
  intro L
  induction L with
  | nil => intro _; simp
  | cons x t ih =>
    intro h
    have hx : x.length = c := h x (List.mem_cons_self x t)
    have ht := ih (fun b hb => h b (List.mem_cons_of_mem x hb))
    simp only [List.flatten_cons, List.length_append, List.length_cons, hx, ht]
    ring

/-- C10: the `PositionSerializer` emits only whole compressed blocks — after
any sequence of `write` calls, every block flushed by `write` or padded and
flushed by `close` holds exactly `COMPRESSION_BLOCK_SIZE` values, so the
written stream encodes a multiple of `COMPRESSION_BLOCK_SIZE` integers, while
`positions_idx` reports exactly the number of values passed to `write`. -/
theorem position_serializer_whole_blocks (vs : List Nat) :
    (∀ b ∈ (PositionSerializer.new.writeAll vs).close,
        b.length = COMPRESSION_BLOCK_SIZE) ∧
    (PositionSerializer.new.writeAll vs).close.flatten.length %
        COMPRESSION_BLOCK_SIZE = 0 ∧
    (PositionSerializer.new.writeAll vs).positionsIdx = vs.length := by
  have hinv0 : PSInv PositionSerializer.new := by
    constructor
    · simp [PositionSerializer.new, COMPRESSION_BLOCK_SIZE]
    · intro b hb
      simp [PositionSerializer.new] at hb
  obtain ⟨hinv, hn⟩ := writeAll_inv vs _ hinv0
  refine ⟨close_blocks hinv, ?_, ?_⟩
  · rw [flatten_length_of_all _ (close_blocks hinv)]
    exact Nat.mul_mod_left _ _
  · simpa [PositionSerializer.positionsIdx, PositionSerializer.new] using hn

section MultiCollectorModel

variable {ι : Type} [DecidableEq ι]
variable {S F : ι → Type} {Err : Type}

/-- `AnyFruit` (multi_collector.rs, line 12): an opaque boxed fruit — a value
of one of the concrete fruit types `F i`, tagged with its runtime type `i`
(the model of `Box<CollectorFruit>` plus its downcast type check). -/
def AnyFruit (ι : Type) (F : ι → Type) : Type := (i : ι) × F i

/-- A type-erased per-segment collector (`Box<SegmentCollector<Fruit=AnyFruit>>`):
the runtime type tag together with that type's segment state. -/
def EChild (ι : Type) (S : ι → Type) : Type := (i : ι) × S i

/-- `CollectorWrapper` (multi_collector.rs, lines 15-69) seen through the
type-erased `UntypedCollector` interface: the wrapped collector's concrete
type tag, its `requires_scoring` answer, its per-segment constructor and its
typed merge. Per-type `collect`/`harvest` behaviour is supplied separately as
the families `collectF`/`harvestF` (one per concrete type `i`). -/
structure UWrapper (ι : Type) (S F : ι → Type) (Err : Type) where
  tag : ι
  requiresScoringF : Bool
  forSegmentF : SegmentLocalId → Except Err (S tag)
  mergeF : List (F tag) → F tag

/-- The downcast of an opaque fruit to concrete type `i`
(`Downcast::<T>::downcast(...)`): succeeds exactly when the runtime tag is `i`. -/
def fruitDowncast (i : ι) : AnyFruit ι F → Option (F i)
  | ⟨j, v⟩ => if h : j = i then some (h ▸ v) else none

/-- Downcast of a whole fruit list; `none` as soon as one element fails
(each failure is an `.unwrap()` panic in the source). -/
def downcastAll (i : ι) : List (AnyFruit ι F) → Option (List (F i))
  | [] => some []
  | f :: fs =>
    match fruitDowncast i f, downcastAll i fs with
    | some v, some vs => some (v :: vs)
    | _, _ => none

/-- `CollectorWrapper::merge_children_anys` (multi_collector.rs, lines 62-68):
downcast every per-segment fruit with `.unwrap()` — a failed downcast panics,
modelled as `none` — then apply the wrapped collector's typed merge and
re-box the result. -/
def mergeChildrenAnys (w : UWrapper ι S F Err) (fruits : List (AnyFruit ι F)) :
    Option (AnyFruit ι F) :=
  (downcastAll w.tag fruits).map (fun vs => ⟨w.tag, w.mergeF vs⟩)

/-- `MultiCollector::for_segment` (multi_collector.rs, lines 153-163): build
every wrapper's segment collector in registration order, short-circuiting on
the first error (`collect::<Result<Vec<_>>>()`). -/
def multiForSegment : List (UWrapper ι S F Err) → SegmentLocalId →
    Except Err (List (EChild ι S))
  | [], _ => Except.ok []
  | w :: ws, seg =>
    match w.forSegmentF seg with
    | Except.error e => Except.error e
    | Except.ok st =>
      match multiForSegment ws seg with
      | Except.error e => Except.error e
      | Except.ok rest => Except.ok (⟨w.tag, st⟩ :: rest)

/-- `MultiCollector::requires_scoring` (multi_collector.rs, lines 165-169):
`self.collector_wrappers.iter().any(|c| c.requires_scoring())`. -/
def multiRequiresScoring (ws : List (UWrapper ι S F Err)) : Bool :=
  ws.any (fun w => w.requiresScoringF)

variable (collectF : ∀ i : ι, S i → DocId → Score → S i)
variable (harvestF : ∀ i : ι, S i → F i)

/-- `MultiCollectorChild::collect` (multi_collector.rs, lines 210-216):
forward one `(doc, score)` event to every child. -/
def multiCollectOne (cs : List (EChild ι S)) (doc : DocId) (score : Score) :
    List (EChild ι S) :=
  cs.map (fun c => ⟨c.1, collectF c.1 c.2 doc score⟩)

/-- A segment scan of the composite child: forward every event in order. -/
def multiCollectRun (cs : List (EChild ι S)) (stream : List (DocId × Score)) :
    List (EChild ι S) :=
  stream.foldl (fun acc ev => multiCollectOne collectF acc ev.1 ev.2) cs

/-- `MultiCollectorChild::harvest` (multi_collector.rs, lines 200-208):
harvest every child in order into one boxed fruit each. -/
def multiHarvest (cs : List (EChild ι S)) : List (AnyFruit ι F) :=
  cs.map (fun c => ⟨c.1, harvestF c.1 c.2⟩)

end MultiCollectorModel

/-- Positional read of a list, with an explicit default for the (unreachable
under the stated bounds) out-of-range case. -/
def listAt {α : Type} (d : α) : List α → Nat → α
  | [], _ => d
  | x :: _, 0 => x
  | _ :: t, k + 1 => listAt d t k

/-- Positional write (`vec[idx] = v`); out of range (unreachable under the
stated bounds, where the source would panic) it leaves the list unchanged. -/
def listSet {α : Type} : List α → Nat → α → List α
  | [], _, _ => []
  | _ :: t, 0, b => b :: t
  | x :: t, k + 1, b => x :: listSet t k b

section MultiCollectorMerge

variable {ι : Type} [DecidableEq ι]
variable {S F : ι → Type} {Err : Type}

/-- The inner loop of `MultiCollector::merge_fruits` (lines 177-181): push the
`idx`-th fruit of one segment onto `segment_fruits_list[idx]`, for each fruit
of that segment in order (`enumerate()` carried as the explicit index). -/
def pushFruitsAux : Nat → List (List (AnyFruit ι F)) → List (AnyFruit ι F) →
    List (List (AnyFruit ι F))
  | _, acc, [] => acc
  | idx, acc, f :: fs =>
    pushFruitsAux (idx + 1) (listSet acc idx (listAt [] acc idx ++ [f])) fs

/-- One segment's pass of the regrouping loop. -/
def pushFruits (acc : List (List (AnyFruit ι F))) (seg : List (AnyFruit ι F)) :
    List (List (AnyFruit ι F)) :=
  pushFruitsAux 0 acc seg

/-- The segment-major to collector-major transposition of
`MultiCollector::merge_fruits` (lines 173-181): start from `n` empty slices
and push every segment's fruits positionwise. -/
def distributeFruits (n : Nat) (segs : List (List (AnyFruit ι F))) :
    List (List (AnyFruit ι F)) :=
  segs.foldl pushFruits (List.replicate n [])

/-- The final loop of `MultiCollector::merge_fruits` (lines 182-187): zip the
wrappers with their slices and let each wrapper merge its own slice (a
`.unwrap()` panic inside any `merge_children_anys` is propagated as `none`). -/
def mergeAllSlices : List (UWrapper ι S F Err) → List (List (AnyFruit ι F)) →
    Option (List (AnyFruit ι F))
  | [], _ => some []
  | _ :: _, [] => some []
  | w :: ws, sl :: sls =>
    match mergeChildrenAnys w sl, mergeAllSlices ws sls with
    | some f, some rest => some (f :: rest)
    | _, _ => none

/-- `MultiCollector::merge_fruits` (multi_collector.rs, lines 171-187):
regroup the per-segment fruit sequences by collector position, then hand
slice `i` to wrapper `i`'s typed merge. -/
def multiMergeFruits (ws : List (UWrapper ι S F Err))
    (segsFruits : List (List (AnyFruit ι F))) : Option (List (AnyFruit ι F)) :=
  mergeAllSlices ws (distributeFruits ws.length segsFruits)

end MultiCollectorMerge

/-- `Result::is_ok` for the modelled `Except`. -/
def isOkE {ε α : Type} : Except ε α → Bool
  | Except.ok _ => true
  | Except.error _ => false

section MultiCollectorProps

variable {ι : Type} [DecidableEq ι]
variable {S F : ι → Type} {Err : Type}

/-- C5: the composite's `requires_scoring` is the logical OR over all
registered wrappers — it is `true` iff at least one sub-collector requires
scoring, and `false` iff all of them return `false`. -/
theorem multi_requires_scoring_or (ws : List (UWrapper ι S F Err)) :
    (multiRequiresScoring ws = true ↔ ∃ w ∈ ws, w.requiresScoringF = true) ∧
    (multiRequiresScoring ws = false ↔ ∀ w ∈ ws, w.requiresScoringF = false) := by
  constructor
  · simp [multiRequiresScoring, List.any_eq_true]
  · simp [multiRequiresScoring, List.any_eq_false]

theorem fruitDowncast_self (i : ι) (v : F i) :
    fruitDowncast i (⟨i, v⟩ : AnyFruit ι F) = some v := by
  show (if h : i = i then some (h ▸ v) else none) = some v
  rw [dif_pos rfl]

theorem downcastAll_none_iff (i : ι) :
    ∀ fs : List (AnyFruit ι F),
      (downcastAll i fs = none ↔ ∃ f ∈ fs, fruitDowncast i f = none) := by
  intro fs
  induction fs with
  | nil => simp [downcastAll]
  | cons f fs ih =>
    cases hf : fruitDowncast i f with
    | none =>
      simp only [downcastAll, hf]
      constructor
      · intro _
        exact ⟨f, List.mem_cons_self f fs, hf⟩
      · intro _
        trivial
    | some v =>
      cases hrest : downcastAll i fs with
      | none =>
        simp only [downcastAll, hf, hrest]
        constructor
        · intro _
          obtain ⟨g, hg, hgnone⟩ := ih.mp hrest
          exact ⟨g, List.mem_cons_of_mem f hg, hgnone⟩
        · intro _
          trivial
      | some vs =>
        simp only [downcastAll, hf, hrest]
        constructor
        · intro h
          exact absurd h (by simp)
        · rintro ⟨g, hg, hgnone⟩
          rcases List.mem_cons.mp hg with rfl | hg2
          · rw [hf] at hgnone
            exact absurd hgnone (by simp)
          · have : downcastAll i fs = none := ih.mpr ⟨g, hg2, hgnone⟩
            rw [hrest] at this
            exact absurd this (by simp)

theorem downcastAll_tagged (i : ι) (w : List (F i)) :
    downcastAll i (w.map (fun v => (⟨i, v⟩ : AnyFruit ι F))) = some w := by
  induction w with
  | nil => rfl
  | cons v vs ih =>
    show (match fruitDowncast i (⟨i, v⟩ : AnyFruit ι F),
        downcastAll i (vs.map (fun v => (⟨i, v⟩ : AnyFruit ι F))) with
      | some v, some vs => some (v :: vs)
      | _, _ => none) = some (v :: vs)
    rw [fruitDowncast_self, ih]

/-- C7: in the composite's merge a failed down-conversion is fatal, never a
recoverable error value — `merge_children_anys` panics (modelled `none`)
exactly when some incoming opaque fruit does not downcast to the wrapper's
concrete type, and succeeds (producing the typed merge of the downcast
fruits, re-boxed under the wrapper's tag) exactly when every fruit
downcasts; its result type carries no error value at all. -/
theorem merge_children_downcast_fatal
    (w : UWrapper ι S F Err) (fruits : List (AnyFruit ι F)) :
    (mergeChildrenAnys w fruits = none ↔
        ∃ f ∈ fruits, fruitDowncast w.tag f = none) ∧
    (∀ vs : List (F w.tag), downcastAll w.tag fruits = some vs →
        mergeChildrenAnys w fruits = some ⟨w.tag, w.mergeF vs⟩) := by
  constructor
  · unfold mergeChildrenAnys
    cases hd : downcastAll w.tag fruits with
    | none =>
      simp only [Option.map_none']
      exact ⟨fun _ => (downcastAll_none_iff w.tag fruits).mp hd, fun _ => trivial⟩
    | some vs =>
      simp only [Option.map_some']
      constructor
      · intro h
        exact absurd h (by simp)
      · intro hex
        have : downcastAll w.tag fruits = none :=
          (downcastAll_none_iff w.tag fruits).mpr hex
        rw [hd] at this
        exact absurd this (by simp)
  · intro vs hvs
    unfold mergeChildrenAnys
    rw [hvs]
    rfl

/-- C8 (part): the composite `for_segment` succeeds iff every registered
sub-collector's `for_segment` succeeds on that segment. -/
theorem multiForSegment_ok_iff (ws : List (UWrapper ι S F Err)) (seg : SegmentLocalId) :
    isOkE (multiForSegment ws seg) = true ↔
      ∀ w ∈ ws, isOkE (w.forSegmentF seg) = true := by
  induction ws with
  | nil => simp [multiForSegment, isOkE]
  | cons w ws ih =>
    cases hw : w.forSegmentF seg with
    | error e =>
      simp only [multiForSegment, hw]
      constructor
      · intro h
        exact absurd h (by simp [isOkE])
      · intro h
        have := h w (List.mem_cons_self w ws)
        rw [hw] at this
        exact absurd this (by simp [isOkE])
    | ok st =>
      cases hrest : multiForSegment ws seg with
      | error e =>
        simp only [multiForSegment, hw, hrest]
        constructor
        · intro h
          exact absurd h (by simp [isOkE])
        · intro h
          have hall : ∀ v ∈ ws, isOkE (v.forSegmentF seg) = true :=
            fun v hv => h v (List.mem_cons_of_mem w hv)
          have := ih.mpr hall
          rw [hrest] at this
          exact absurd this (by simp [isOkE])
      | ok rest =>
        simp only [multiForSegment, hw, hrest]
        constructor
        · intro _ v hv
          rcases List.mem_cons.mp hv with rfl | hv2
          · rw [hw]; rfl
          · exact (ih.mp (by rw [hrest]; rfl)) v hv2
        · intro _
          rfl

theorem multiForSegment_error_iff (ws : List (UWrapper ι S F Err))
    (seg : SegmentLocalId) (e : Err) :
    multiForSegment ws seg = Except.error e ↔
      ∃ pre w suf, ws = pre ++ w :: suf ∧
        (∀ v ∈ pre, isOkE (v.forSegmentF seg) = true) ∧
        w.forSegmentF seg = Except.error e := by
  induction ws with
  | nil =>
    constructor
    · intro h
      exact absurd h (by simp [multiForSegment])
    · rintro ⟨pre, w, suf, habs, -, -⟩
      exact absurd habs (by simp)
  | cons w ws ih =>
    cases hw : w.forSegmentF seg with
    | error e2 =>
      simp only [multiForSegment, hw]
      constructor
      · intro h
        injection h with he
        refine ⟨[], w, ws, rfl, ?_, ?_⟩
        · intro v hv
          exact absurd hv (by simp)
        · rw [hw, he]
      · rintro ⟨pre, v, suf, hdecomp, hpre, hverr⟩
        cases pre with
        | nil =>
          simp only [List.nil_append, List.cons.injEq] at hdecomp
          obtain ⟨rfl, rfl⟩ := hdecomp
          rw [hw] at hverr
          injection hverr with he
          rw [he]
        | cons p pre2 =>
          simp only [List.cons_append, List.cons.injEq] at hdecomp
          obtain ⟨rfl, hws⟩ := hdecomp
          have hok := hpre w (List.mem_cons_self w pre2)
          rw [hw] at hok
          exact absurd hok (by simp [isOkE])
    | ok st =>
      cases hrest : multiForSegment ws seg with
      | error e2 =>
        simp only [multiForSegment, hw, hrest]
        constructor
        · intro h
          injection h with he
          obtain ⟨pre, v, suf, hd, hpre, hverr⟩ := ih.mp (by rw [hrest, he])
          refine ⟨w :: pre, v, suf, by rw [hd]; rfl, ?_, hverr⟩
          intro u hu
          rcases List.mem_cons.mp hu with rfl | hu2
          · rw [hw]; rfl
          · exact hpre u hu2
        · rintro ⟨pre, v, suf, hd, hpre, hverr⟩
          cases pre with
          | nil =>
            simp only [List.nil_append, List.cons.injEq] at hd
            obtain ⟨rfl, rfl⟩ := hd
            rw [hw] at hverr
            exact Except.noConfusion hverr
          | cons p pre2 =>
            simp only [List.cons_append, List.cons.injEq] at hd
            obtain ⟨rfl, hws⟩ := hd
            have herr : multiForSegment ws seg = Except.error e :=
              ih.mpr ⟨pre2, v, suf, hws,
                fun u hu => hpre u (List.mem_cons_of_mem w hu), hverr⟩
            rw [hrest] at herr
            exact herr
      | ok rest =>
        simp only [multiForSegment, hw, hrest]
        constructor
        · intro h
          exact Except.noConfusion h
        · rintro ⟨pre, v, suf, hd, hpre, hverr⟩
          cases pre with
          | nil =>
            simp only [List.nil_append, List.cons.injEq] at hd
            obtain ⟨rfl, rfl⟩ := hd
            rw [hw] at hverr
            exact Except.noConfusion hverr
          | cons p pre2 =>
            simp only [List.cons_append, List.cons.injEq] at hd
            obtain ⟨rfl, hws⟩ := hd
            have herr : multiForSegment ws seg = Except.error e :=
              ih.mpr ⟨pre2, v, suf, hws,
                fun u hu => hpre u (List.mem_cons_of_mem w hu), hverr⟩
            rw [hrest] at herr
            exact Except.noConfusion herr

theorem multiForSegment_ok_spec (ws : List (UWrapper ι S F Err)) (seg : SegmentLocalId) :
    ∀ cs, multiForSegment ws seg = Except.ok cs →
      cs.length = ws.length ∧
      ∀ k, k < ws.length → ∀ dW : UWrapper ι S F Err, ∀ dC : EChild ι S,
        ∃ st, (listAt dW ws k).forSegmentF seg = Except.ok st ∧
          listAt dC cs k = ⟨(listAt dW ws k).tag, st⟩ := by
  induction ws with
  | nil =>
    intro cs h
    simp only [multiForSegment] at h
    injection h with hcs
    subst hcs
    exact ⟨rfl, fun k hk => absurd hk (by simp)⟩
  | cons w ws ih =>
    intro cs h
    cases hw : w.forSegmentF seg with
    | error e =>
      simp only [multiForSegment, hw] at h
      exact Except.noConfusion h
    | ok st =>
      cases hrest : multiForSegment ws seg with
      | error e =>
        simp only [multiForSegment, hw, hrest] at h
        exact Except.noConfusion h
      | ok rest =>
        simp only [multiForSegment, hw, hrest] at h
        injection h with hcs
        subst hcs
        obtain ⟨hlen, hidx⟩ := ih rest hrest
        refine ⟨by simp [hlen], ?_⟩
        intro k hk dW dC
        cases k with
        | zero => exact ⟨st, hw, rfl⟩
        | succ j =>
          have hj : j < ws.length := by
            simp only [List.length_cons] at hk
            omega
          exact hidx j hj dW dC

/-- C8: composite `for_segment` error handling — it succeeds iff every
registered sub-collector succeeds on the segment; it returns an error iff
some wrapper fails, and the error returned is the first failing wrapper's
(every earlier wrapper having succeeded); on success the composite child
holds one per-segment collector per wrapper, in registration order. -/
theorem multi_for_segment_error_propagation (ws : List (UWrapper ι S F Err))
    (seg : SegmentLocalId) :
    (isOkE (multiForSegment ws seg) = true ↔
        ∀ w ∈ ws, isOkE (w.forSegmentF seg) = true) ∧
    (∀ e : Err, multiForSegment ws seg = Except.error e ↔
        ∃ pre w suf, ws = pre ++ w :: suf ∧
          (∀ v ∈ pre, isOkE (v.forSegmentF seg) = true) ∧
          w.forSegmentF seg = Except.error e) ∧
    (∀ cs, multiForSegment ws seg = Except.ok cs →
        cs.length = ws.length ∧
        ∀ k, k < ws.length → ∀ dW : UWrapper ι S F Err, ∀ dC : EChild ι S,
          ∃ st, (listAt dW ws k).forSegmentF seg = Except.ok st ∧
            listAt dC cs k = ⟨(listAt dW ws k).tag, st⟩) :=
  ⟨multiForSegment_ok_iff ws seg, fun e => multiForSegment_error_iff ws seg e,
   multiForSegment_ok_spec ws seg⟩

end MultiCollectorProps

theorem listSet_length {α : Type} : ∀ (l : List α) (k : Nat) (b : α),
    (listSet l k b).length = l.length := by
  intro l
  induction l with
  | nil => intro k b; rfl
  | cons x t ih =>
    intro k b
    cases k with
    | zero => rfl
    | succ j => simp [listSet, ih j b]

theorem listAt_listSet_same {α : Type} (d : α) : ∀ (l : List α) (k : Nat) (b : α),
    k < l.length → listAt d (listSet l k b) k = b := by
  intro l
  induction l with
  | nil => intro k b hk; exact absurd hk (by simp)
  | cons x t ih =>
    intro k b hk
    cases k with
    | zero => rfl
    | succ j =>
      show listAt d (listSet t j b) j = b
      exact ih j b (by simp at hk; omega)

theorem listAt_listSet_other {α : Type} (d : α) : ∀ (l : List α) (j k : Nat) (b : α),
    j ≠ k → listAt d (listSet l j b) k = listAt d l k := by
  intro l
  induction l with
  | nil => intro j k b _; rfl
  | cons x t ih =>
    intro j k b hjk
    cases j with
    | zero =>
      cases k with
      | zero => exact absurd rfl hjk
      | succ k2 => rfl
    | succ j2 =>
      cases k with
      | zero => rfl
      | succ k2 =>
        show listAt d (listSet t j2 b) k2 = listAt d t k2
        exact ih j2 k2 b (fun h => hjk (by rw [h]))

theorem listAt_map {α β : Type} (f : α → β) (d2 : β) (d1 : α) :
    ∀ (l : List α) (k : Nat), k < l.length →
      listAt d2 (l.map f) k = f (listAt d1 l k) := by
  intro l
  induction l with
  | nil => intro k hk; exact absurd hk (by simp)
  | cons x t ih =>
    intro k hk
    cases k with
    | zero => rfl
    | succ j =>
      show listAt d2 (t.map f) j = f (listAt d1 t j)
      exact ih j (by simp at hk; omega)

theorem listAt_replicate_nil {α : Type} : ∀ (n k : Nat),
    listAt ([] : List α) (List.replicate n ([] : List α)) k = [] := by
  intro n
  induction n with
  | zero => intro k; cases k <;> rfl
  | succ m ih =>
    intro k
    cases k with
    | zero => rfl
    | succ j => exact ih j

section MultiCollectorTranspose

variable {ι : Type} [DecidableEq ι]
variable {S F : ι → Type} {Err : Type}

theorem pushFruitsAux_length :
    ∀ (seg : List (AnyFruit ι F)) (idx : Nat) (acc : List (List (AnyFruit ι F))),
      (pushFruitsAux idx acc seg).length = acc.length := by
  intro seg
  induction seg with
  | nil => intro idx acc; rfl
  | cons f fs ih =>
    intro idx acc
    show (pushFruitsAux (idx + 1) (listSet acc idx (listAt [] acc idx ++ [f])) fs).length = _
    rw [ih, listSet_length]

theorem pushFruitsAux_at (d : AnyFruit ι F) :
    ∀ (seg : List (AnyFruit ι F)) (idx : Nat) (acc : List (List (AnyFruit ι F))) (k : Nat),
      k < acc.length →
      listAt [] (pushFruitsAux idx acc seg) k =
        if idx ≤ k ∧ k < idx + seg.length then listAt [] acc k ++ [listAt d seg (k - idx)]
        else listAt [] acc k := by
  intro seg
  induction seg with
  | nil =>
    intro idx acc k hk
    rw [if_neg (by simp only [List.length_nil]; omega)]
    rfl
  | cons f fs ih =>
    intro idx acc k hk
    show listAt [] (pushFruitsAux (idx + 1) (listSet acc idx (listAt [] acc idx ++ [f])) fs) k = _
    have hlen : k < (listSet acc idx (listAt [] acc idx ++ [f])).length := by
      rw [listSet_length]
      exact hk
    rw [ih (idx + 1) _ k hlen]
    by_cases hkidx : k = idx
    · subst hkidx
      rw [if_neg (by omega)]
      rw [listAt_listSet_same _ _ _ _ hk]
      rw [if_pos (And.intro (Nat.le_refl k) (by simp only [List.length_cons]; omega))]
      rw [Nat.sub_self]
      rfl
    · rw [listAt_listSet_other _ _ _ _ _ (fun h => hkidx h.symm)]
      by_cases h2 : idx + 1 ≤ k ∧ k < idx + 1 + fs.length
      · rw [if_pos h2, if_pos (by simp only [List.length_cons]; omega)]
        have hsub : k - idx = (k - (idx + 1)) + 1 := by omega
        rw [hsub]
        rfl
      · rw [if_neg h2, if_neg (by simp only [List.length_cons]; omega)]

theorem foldl_pushFruits_at (d : AnyFruit ι F) (n : Nat) :
    ∀ (segs : List (List (AnyFruit ι F))) (acc : List (List (AnyFruit ι F))),
      acc.length = n → (∀ s ∈ segs, s.length = n) → ∀ k, k < n →
      listAt [] (segs.foldl pushFruits acc) k =
        listAt [] acc k ++ segs.map (fun s => listAt d s k) := by
  intro segs
  induction segs with
  | nil =>
    intro acc hacc hs k hk
    simp
  | cons s rest ih =>
    intro acc hacc hs k hk
    show listAt [] (rest.foldl pushFruits (pushFruits acc s)) k = _
    have hslen : s.length = n := hs s (List.mem_cons_self s rest)
    have hlen2 : (pushFruits acc s).length = n := by
      unfold pushFruits
      rw [pushFruitsAux_length]
      exact hacc
    rw [ih (pushFruits acc s) hlen2 (fun t ht => hs t (List.mem_cons_of_mem s ht)) k hk]
    unfold pushFruits
    rw [pushFruitsAux_at d s 0 acc k (by omega)]
    rw [if_pos (And.intro (Nat.zero_le k) (by omega))]
    simp [List.append_assoc]

theorem distributeFruits_length (n : Nat) (segs : List (List (AnyFruit ι F))) :
    (distributeFruits n segs).length = n := by
  unfold distributeFruits
  have h : ∀ (ss : List (List (AnyFruit ι F))) (acc : List (List (AnyFruit ι F))),
      (ss.foldl pushFruits acc).length = acc.length := by
    intro ss
    induction ss with
    | nil => intro acc; rfl
    | cons s rest ih =>
      intro acc
      show (rest.foldl pushFruits (pushFruits acc s)).length = _
      rw [ih, pushFruits, pushFruitsAux_length]
  rw [h, List.length_replicate]

theorem distributeFruits_at (d : AnyFruit ι F) (n : Nat)
    (segs : List (List (AnyFruit ι F))) (hs : ∀ s ∈ segs, s.length = n)
    (k : Nat) (hk : k < n) :
    listAt [] (distributeFruits n segs) k = segs.map (fun s => listAt d s k) := by
  unfold distributeFruits
  rw [foldl_pushFruits_at d n segs (List.replicate n []) (by simp) hs k hk]
  rw [listAt_replicate_nil]
  rfl

/-- C4: positional correspondence in the composite — the composite
`for_segment` yields exactly one per-segment child per registered wrapper;
a composite harvest returns exactly one opaque fruit per child, the k-th
fruit being the k-th child's harvest boxed under that child's tag, so the
fruits are in registration order; the merge's transposition regroups the
segment-major fruit lists so that slice k holds exactly the k-th fruit of
every segment in segment order; and `merge_fruits` then hands slice k to
wrapper k's typed merge. -/
theorem multi_positional_correspondence (ws : List (UWrapper ι S F Err))
    (harvestF : ∀ i : ι, S i → F i)
    (segs : List (List (AnyFruit ι F))) (d : AnyFruit ι F)
    (hlen : ∀ s ∈ segs, s.length = ws.length) :
    (∀ seg cs, multiForSegment ws seg = Except.ok cs → cs.length = ws.length) ∧
    (∀ cs : List (EChild ι S), (multiHarvest harvestF cs).length = cs.length ∧
      ∀ k, k < cs.length → ∀ dC : EChild ι S,
        listAt d (multiHarvest harvestF cs) k =
          ⟨(listAt dC cs k).1, harvestF (listAt dC cs k).1 (listAt dC cs k).2⟩) ∧
    (∀ k, k < ws.length →
      listAt [] (distributeFruits ws.length segs) k =
        segs.map (fun s => listAt d s k)) ∧
    multiMergeFruits ws segs = mergeAllSlices ws (distributeFruits ws.length segs) := by
  refine ⟨?_, ?_, ?_, rfl⟩
  · intro seg cs h
    exact (multiForSegment_ok_spec ws seg cs h).1
  · intro cs
    refine ⟨by simp [multiHarvest], ?_⟩
    intro k hk dC
    exact listAt_map _ d dC cs k hk
  · intro k hk
    exact distributeFruits_at d ws.length segs hlen k hk

end MultiCollectorTranspose

section MultiCollectorRuns

variable {ι : Type} [DecidableEq ι]
variable {S F : ι → Type} {Err : Type}
variable (collectF : ∀ i : ι, S i → DocId → Score → S i)
variable (harvestF : ∀ i : ι, S i → F i)

/-- One segment's full composite run: build the children, forward every
`(doc, score)` event to all of them, then harvest the ordered fruit list. -/
def multiSegRun (ws : List (UWrapper ι S F Err))
    (p : SegmentLocalId × List (DocId × Score)) : Except Err (List (AnyFruit ι F)) :=
  match multiForSegment ws p.1 with
  | Except.error e => Except.error e
  | Except.ok cs => Except.ok (multiHarvest harvestF (multiCollectRun collectF cs p.2))

/-- The composite run over every segment, collecting each segment's fruit
list (the executor's loop feeding `merge_fruits`). -/
def multiRunSegs (ws : List (UWrapper ι S F Err)) :
    List (SegmentLocalId × List (DocId × Score)) → Except Err (List (List (AnyFruit ι F)))
  | [] => Except.ok []
  | p :: ps =>
    match multiSegRun collectF harvestF ws p, multiRunSegs ws ps with
    | Except.error e, _ => Except.error e
    | Except.ok _, Except.error e => Except.error e
    | Except.ok fr, Except.ok rest => Except.ok (fr :: rest)

/-- One segment's run of a single collector on its own. -/
def aloneSegRun (w : UWrapper ι S F Err) (p : SegmentLocalId × List (DocId × Score)) :
    Except Err (F w.tag) :=
  match w.forSegmentF p.1 with
  | Except.error e => Except.error e
  | Except.ok s0 =>
    Except.ok (harvestF w.tag (p.2.foldl (fun st ev => collectF w.tag st ev.1 ev.2) s0))

/-- One collector run alone over every segment. -/
def aloneRunSegs (w : UWrapper ι S F Err) :
    List (SegmentLocalId × List (DocId × Score)) → Except Err (List (F w.tag))
  | [] => Except.ok []
  | p :: ps =>
    match aloneSegRun collectF harvestF w p, aloneRunSegs w ps with
    | Except.error e, _ => Except.error e
    | Except.ok _, Except.error e => Except.error e
    | Except.ok f, Except.ok rest => Except.ok (f :: rest)

/-- Running one collector alone end to end: per-segment fruits, then the
collector's own typed merge. -/
def aloneFinal (w : UWrapper ι S F Err)
    (segs : List (SegmentLocalId × List (DocId × Score))) : Except Err (F w.tag) :=
  match aloneRunSegs collectF harvestF w segs with
  | Except.error e => Except.error e
  | Except.ok fs => Except.ok (w.mergeF fs)

theorem multiCollectRun_map (cs : List (EChild ι S)) (stream : List (DocId × Score)) :
    multiCollectRun collectF cs stream =
      cs.map (fun c => ⟨c.1, stream.foldl (fun st ev => collectF c.1 st ev.1 ev.2) c.2⟩) := by
  induction stream generalizing cs with
  | nil =>
    show cs = cs.map (fun c => ⟨c.1, c.2⟩)
    exact (List.map_id cs).symm
  | cons ev evs ih =>
    show multiCollectRun collectF (multiCollectOne collectF cs ev.1 ev.2) evs = _
    rw [ih]
    unfold multiCollectOne
    rw [List.map_map]
    rfl

theorem runs_decompose (wA wB : UWrapper ι S F Err) :
    ∀ segs : List (SegmentLocalId × List (DocId × Score)),
      (∀ p ∈ segs, isOkE (wA.forSegmentF p.1) = true) →
      (∀ p ∈ segs, isOkE (wB.forSegmentF p.1) = true) →
      ∃ fas fbs,
        aloneRunSegs collectF harvestF wA segs = Except.ok fas ∧
        aloneRunSegs collectF harvestF wB segs = Except.ok fbs ∧
        fas.length = fbs.length ∧
        multiRunSegs collectF harvestF [wA, wB] segs =
          Except.ok (List.zipWith (fun x y => [x, y])
            (fas.map (fun a => (⟨wA.tag, a⟩ : AnyFruit ι F)))
            (fbs.map (fun b => (⟨wB.tag, b⟩ : AnyFruit ι F)))) := by
  intro segs
  induction segs with
  | nil =>
    intro _ _
    exact ⟨[], [], rfl, rfl, rfl, rfl⟩
  | cons p ps ih =>
    intro hA hB
    obtain ⟨fas, fbs, hfa, hfb, hlen, hmulti⟩ :=
      ih (fun q hq => hA q (List.mem_cons_of_mem p hq))
         (fun q hq => hB q (List.mem_cons_of_mem p hq))
    have hA0 := hA p (List.mem_cons_self p ps)
    have hB0 := hB p (List.mem_cons_self p ps)
    cases hwa : wA.forSegmentF p.1 with
    | error e =>
      rw [hwa] at hA0
      exact absurd hA0 (by simp [isOkE])
    | ok sA =>
      cases hwb : wB.forSegmentF p.1 with
      | error e =>
        rw [hwb] at hB0
        exact absurd hB0 (by simp [isOkE])
      | ok sB =>
        have ha1 : aloneSegRun collectF harvestF wA p =
            Except.ok (harvestF wA.tag
              (p.2.foldl (fun st ev => collectF wA.tag st ev.1 ev.2) sA)) := by
          unfold aloneSegRun
          rw [hwa]
        have hb1 : aloneSegRun collectF harvestF wB p =
            Except.ok (harvestF wB.tag
              (p.2.foldl (fun st ev => collectF wB.tag st ev.1 ev.2) sB)) := by
          unfold aloneSegRun
          rw [hwb]
        have hm : multiForSegment [wA, wB] p.1 =
            Except.ok [⟨wA.tag, sA⟩, ⟨wB.tag, sB⟩] := by
          simp only [multiForSegment, hwa, hwb]
        have hseg : multiSegRun collectF harvestF [wA, wB] p =
            Except.ok
              [⟨wA.tag, harvestF wA.tag
                  (p.2.foldl (fun st ev => collectF wA.tag st ev.1 ev.2) sA)⟩,
               ⟨wB.tag, harvestF wB.tag
                  (p.2.foldl (fun st ev => collectF wB.tag st ev.1 ev.2) sB)⟩] := by
          unfold multiSegRun
          rw [hm]
          show Except.ok (multiHarvest harvestF
            (multiCollectRun collectF [⟨wA.tag, sA⟩, ⟨wB.tag, sB⟩] p.2)) = _
          rw [multiCollectRun_map]
          rfl
        refine ⟨harvestF wA.tag (p.2.foldl (fun st ev => collectF wA.tag st ev.1 ev.2) sA) :: fas,
                harvestF wB.tag (p.2.foldl (fun st ev => collectF wB.tag st ev.1 ev.2) sB) :: fbs,
                ?_, ?_, by simp [hlen], ?_⟩
        · simp only [aloneRunSegs]
          rw [ha1, hfa]
        · simp only [aloneRunSegs]
          rw [hb1, hfb]
        · simp only [multiRunSegs]
          rw [hseg, hmulti]
          rfl

theorem foldl_pushFruits_pairs :
    ∀ (xs ys : List (AnyFruit ι F)) (acc0 acc1 : List (AnyFruit ι F)),
      xs.length = ys.length →
      (List.zipWith (fun x y => [x, y]) xs ys).foldl pushFruits [acc0, acc1] =
        [acc0 ++ xs, acc1 ++ ys] := by
  intro xs
  induction xs with
  | nil =>
    intro ys acc0 acc1 h
    cases ys with
    | nil => simp
    | cons y ys => exact absurd h (by simp)
  | cons x xs ih =>
    intro ys acc0 acc1 h
    cases ys with
    | nil => exact absurd h (by simp)
    | cons y ys =>
      show (List.zipWith (fun x y => [x, y]) xs ys).foldl pushFruits
          (pushFruits [acc0, acc1] [x, y]) = _
      have hp : pushFruits [acc0, acc1] [x, y] = [acc0 ++ [x], acc1 ++ [y]] := rfl
      rw [hp, ih ys (acc0 ++ [x]) (acc1 ++ [y]) (by simp at h; exact h)]
      simp

theorem distributeFruits_pairs (xs ys : List (AnyFruit ι F)) (h : xs.length = ys.length) :
    distributeFruits 2 (List.zipWith (fun x y => [x, y]) xs ys) = [xs, ys] := by
  unfold distributeFruits
  have hrep : (List.replicate 2 ([] : List (AnyFruit ι F))) = [[], []] := rfl
  rw [hrep, foldl_pushFruits_pairs xs ys [] [] h]
  simp

theorem mergeAllSlices_pair (wA wB : UWrapper ι S F Err)
    (fas : List (F wA.tag)) (fbs : List (F wB.tag)) :
    mergeAllSlices [wA, wB]
        [fas.map (fun a => (⟨wA.tag, a⟩ : AnyFruit ι F)),
         fbs.map (fun b => (⟨wB.tag, b⟩ : AnyFruit ι F))] =
      some [⟨wA.tag, wA.mergeF fas⟩, ⟨wB.tag, wB.mergeF fbs⟩] := by
  have hA : mergeChildrenAnys wA (fas.map (fun a => (⟨wA.tag, a⟩ : AnyFruit ι F))) =
      some ⟨wA.tag, wA.mergeF fas⟩ := by
    unfold mergeChildrenAnys
    rw [downcastAll_tagged]
    rfl
  have hB : mergeChildrenAnys wB (fbs.map (fun b => (⟨wB.tag, b⟩ : AnyFruit ι F))) =
      some ⟨wB.tag, wB.mergeF fbs⟩ := by
    unfold mergeChildrenAnys
    rw [downcastAll_tagged]
    rfl
  simp only [mergeAllSlices]
  rw [hA, hB]

/-- C3: composite invariance — for any two collectors A and B and any
per-segment event streams on which both can be constructed, registering both
in a `MultiCollector`, running the single scan (every `collect` forwarded to
both children), harvesting, and merging yields for A and for B exactly the
final Fruits of running A alone and B alone over the same streams. -/
theorem multi_composite_invariance (wA wB : UWrapper ι S F Err)
    (segs : List (SegmentLocalId × List (DocId × Score)))
    (hA : ∀ p ∈ segs, isOkE (wA.forSegmentF p.1) = true)
    (hB : ∀ p ∈ segs, isOkE (wB.forSegmentF p.1) = true) :
    ∃ fA fB fruitLists,
      aloneFinal collectF harvestF wA segs = Except.ok fA ∧
      aloneFinal collectF harvestF wB segs = Except.ok fB ∧
      multiRunSegs collectF harvestF [wA, wB] segs = Except.ok fruitLists ∧
      multiMergeFruits [wA, wB] fruitLists =
        some [⟨wA.tag, fA⟩, ⟨wB.tag, fB⟩] := by
  obtain ⟨fas, fbs, hfa, hfb, hlen, hmulti⟩ :=
    runs_decompose collectF harvestF wA wB segs hA hB
  refine ⟨wA.mergeF fas, wB.mergeF fbs, _, ?_, ?_, hmulti, ?_⟩
  · unfold aloneFinal
    rw [hfa]
  · unfold aloneFinal
    rw [hfb]
  · unfold multiMergeFruits
    rw [show ([wA, wB] : List (UWrapper ι S F Err)).length = 2 from rfl]
    have hd : distributeFruits 2
        (List.zipWith (fun x y => [x, y])
          (fas.map (fun a => (⟨wA.tag, a⟩ : AnyFruit ι F)))
          (fbs.map (fun b => (⟨wB.tag, b⟩ : AnyFruit ι F)))) =
        [fas.map (fun a => (⟨wA.tag, a⟩ : AnyFruit ι F)),
         fbs.map (fun b => (⟨wB.tag, b⟩ : AnyFruit ι F))] :=
      distributeFruits_pairs (fas.map (fun a => (⟨wA.tag, a⟩ : AnyFruit ι F)))
        (fbs.map (fun b => (⟨wB.tag, b⟩ : AnyFruit ι F))) (by simp [hlen])
    exact (congrArg (mergeAllSlices [wA, wB]) hd).trans (mergeAllSlices_pair wA wB fas fbs)

end MultiCollectorRuns

/-- Witness fixture: the per-type segment state of two concrete collector
types tagged by `Bool` — `true` is a document-count collector, `false` an
integer score-sum collector (both state and fruit are numbers). -/
abbrev wcS : Bool → Type := fun _ => Nat

/-- Witness fixture: the per-type fruit of the two concrete collector types. -/
abbrev wcF : Bool → Type := fun _ => Nat

/-- Witness fixture: `collect` behaviour of the two types — the count
collector increments, the sum collector adds the score. -/
def wcCollect : ∀ i : Bool, wcS i → DocId → Score → wcS i :=
  fun i s _doc sc => if i then s + 1 else s + sc.toNat

/-- Witness fixture: `harvest` for both types returns the accumulated state. -/
def wcHarvest : ∀ i : Bool, wcS i → wcF i :=
  fun _ s => s

/-- Witness fixture: a count collector wrapper. -/
def wCount : UWrapper Bool wcS wcF Unit :=
  { tag := true, requiresScoringF := false,
    forSegmentF := fun _ => Except.ok 0,
    mergeF := fun l => l.foldl (fun a b => a + b) 0 }

/-- Witness fixture: a score-sum collector wrapper that requires scoring. -/
def wSum : UWrapper Bool wcS wcF Unit :=
  { tag := false, requiresScoringF := true,
    forSegmentF := fun _ => Except.ok 0,
    mergeF := fun l => l.foldl (fun a b => a + b) 0 }

/-- Witness for C3: the count and sum collectors composed over one segment
with two documents produce exactly their standalone results. -/
theorem multi_composite_invariance_witness :
    ∃ fA fB fruitLists,
      aloneFinal wcCollect wcHarvest wCount [(0, [(0, 3), (1, 2)])] = Except.ok fA ∧
      aloneFinal wcCollect wcHarvest wSum [(0, [(0, 3), (1, 2)])] = Except.ok fB ∧
      multiRunSegs wcCollect wcHarvest [wCount, wSum] [(0, [(0, 3), (1, 2)])] =
        Except.ok fruitLists ∧
      multiMergeFruits [wCount, wSum] fruitLists =
        some [⟨wCount.tag, fA⟩, ⟨wSum.tag, fB⟩] :=
  multi_composite_invariance wcCollect wcHarvest wCount wSum
    [(0, [(0, 3), (1, 2)])] (by decide) (by decide)

/-- Witness for C4 over two segments, each harvesting one fruit per
registered wrapper. -/
theorem multi_positional_correspondence_witness :
    (∀ seg cs, multiForSegment [wCount, wSum] seg = Except.ok cs →
        cs.length = [wCount, wSum].length) ∧
    (∀ cs : List (EChild Bool wcS), (multiHarvest wcHarvest cs).length = cs.length ∧
      ∀ k, k < cs.length → ∀ dC : EChild Bool wcS,
        listAt (⟨true, 0⟩ : AnyFruit Bool wcF) (multiHarvest wcHarvest cs) k =
          ⟨(listAt dC cs k).1, wcHarvest (listAt dC cs k).1 (listAt dC cs k).2⟩) ∧
    (∀ k, k < [wCount, wSum].length →
      listAt [] (distributeFruits [wCount, wSum].length
          [[(⟨true, 3⟩ : AnyFruit Bool wcF), ⟨false, 7⟩], [⟨true, 1⟩, ⟨false, 2⟩]]) k =
        [[(⟨true, 3⟩ : AnyFruit Bool wcF), ⟨false, 7⟩], [⟨true, 1⟩, ⟨false, 2⟩]].map
          (fun s => listAt (⟨true, 0⟩ : AnyFruit Bool wcF) s k)) ∧
    multiMergeFruits [wCount, wSum]
        [[(⟨true, 3⟩ : AnyFruit Bool wcF), ⟨false, 7⟩], [⟨true, 1⟩, ⟨false, 2⟩]] =
      mergeAllSlices [wCount, wSum]
        (distributeFruits [wCount, wSum].length
          [[(⟨true, 3⟩ : AnyFruit Bool wcF), ⟨false, 7⟩], [⟨true, 1⟩, ⟨false, 2⟩]]) :=
  multi_positional_correspondence [wCount, wSum] wcHarvest
    [[(⟨true, 3⟩ : AnyFruit Bool wcF), ⟨false, 7⟩], [⟨true, 1⟩, ⟨false, 2⟩]]
    (⟨true, 0⟩ : AnyFruit Bool wcF) (by decide)
